import Mathlib

/-
Verification of the runtime core of the gluon virtual machine:
the bytecode verifier (`src/vm/src/verify.rs`), the `def_macro` expansion
hook (`src/vm/src/def_macro.rs`) and the mark-and-sweep heap
(`src/vm/src/gc.rs`), embedded shallowly and checked against the
natural-language specification.
-/

set_option maxHeartbeats 1000000

namespace Verify

/-- Source-level types (`base::types::TcType`).
Modelled from the spec: the `base` crate is not part of this repository.
Only the structure the verifier consumes is represented: function types
with their formal argument list and return type, record types with their
field types listed positionally (field names are never read by the
verifier), variant (sum) types listing each constructor as that
constructor's function type, the primitive types, and an opaque
constructor for every other source type. -/
inductive TcType where
  | int : TcType
  | float : TcType
  | string : TcType
  | function : List TcType → TcType → TcType
  | record : List TcType → TcType
  | variants : List TcType → TcType
  | other : Nat → TcType

/-- Modelled from the spec: `base::types::arg_iter` (not in this
repository) iterates the formal argument types of a function type; on a
non-function type it yields nothing. -/
def argTypes : TcType → List TcType
  | .function args _ => args
  | _ => []

/-- Modelled from the spec: the `typ` field of `arg_iter` after the
iterator has yielded `k` formal arguments — the remaining (return) type. -/
def retAfter : TcType → Nat → TcType
  | .function args ret, k => if k < args.length then .function (args.drop k) ret else ret
  | t, _ => t

/-- The verifier's abstract value domain (`verify.rs`, `enum
AbstractType`): a full source-level type, or a known constructor of a sum
type with statically known argument abstract types. -/
inductive AbstractType where
  | tcType : TcType → AbstractType
  | variant : Nat → List AbstractType → AbstractType

/-- Verifier errors (`verify.rs`, `enum Error`). -/
inductive VError where
  | undefinedGlobal : Nat → VError
  | typeMismatch : AbstractType → AbstractType → VError
  | notEnoughArguments : VError
  | emptyStack : VError
  | fieldIsOutOfRange : AbstractType → Nat → VError

theorem sizeOf_argTypes_le (t : TcType) : sizeOf (argTypes t) ≤ sizeOf t := by
  cases t <;> simp [argTypes] <;> omega

theorem isSome_getElem_iff {α : Type} (l : List α) (k : Nat) :
    l[k]?.isSome = true ↔ k < l.length := by
  constructor
  · intro h
    by_contra hlt
    rw [List.getElem?_eq_none (by omega)] at h
    simp at h
  · intro h
    rw [List.getElem?_eq_getElem h]
    rfl

mutual

/-- `Verifier::equivalent` (`verify.rs` lines 146–190).  `tyEq` stands for
the source-level equivalence judgement `check::equivalent` queried through
the type environment (not in this repository, taken as a parameter). -/
def equivalent (tyEq : TcType → TcType → Bool) : AbstractType → AbstractType → Bool
  | .tcType e, .tcType a => tyEq e a
  | .tcType e, .variant atag aargs =>
    match e with
    | .variants vs =>
      match h : vs[atag]? with
      | some ct => eqZipTA tyEq (argTypes ct) aargs
      | none => false
    | _ => false
  | .variant etag eargs, .tcType a =>
    match a with
    | .variants vs =>
      match h : vs[etag]? with
      | some ct => eqZipAT tyEq eargs (argTypes ct)
      | none => false
    | _ => false
  | .variant etag eargs, .variant atag aargs =>
    etag == atag && eqZipAA tyEq eargs aargs
termination_by a b => sizeOf a + sizeOf b
decreasing_by
  all_goals simp_wf
  · have h1 := sizeOf_argTypes_le ct
    have h2 := List.sizeOf_lt_of_mem (List.getElem?_mem h)
    omega
  · have h1 := sizeOf_argTypes_le ct
    have h2 := List.sizeOf_lt_of_mem (List.getElem?_mem h)
    omega
  · omega

/-- The `zip`-and-`all` loop of the `Concrete`/`Variant` case. -/
def eqZipTA (tyEq : TcType → TcType → Bool) : List TcType → List AbstractType → Bool
  | l :: ls, r :: rs => equivalent tyEq (.tcType l) r && eqZipTA tyEq ls rs
  | _, _ => true
termination_by ls rs => sizeOf ls + sizeOf rs
decreasing_by
  all_goals simp_wf <;> omega

/-- The `zip`-and-`all` loop of the `Variant`/`Concrete` case. -/
def eqZipAT (tyEq : TcType → TcType → Bool) : List AbstractType → List TcType → Bool
  | l :: ls, r :: rs => equivalent tyEq l (.tcType r) && eqZipAT tyEq ls rs
  | _, _ => true
termination_by ls rs => sizeOf ls + sizeOf rs
decreasing_by
  all_goals simp_wf <;> omega

/-- The `zip`-and-`all` loop of the `Variant`/`Variant` case. -/
def eqZipAA (tyEq : TcType → TcType → Bool) : List AbstractType → List AbstractType → Bool
  | l :: ls, r :: rs => equivalent tyEq l r && eqZipAA tyEq ls rs
  | _, _ => true
termination_by ls rs => sizeOf ls + sizeOf rs
decreasing_by
  all_goals simp_wf <;> omega

end

/-- Bytecode instructions (`types::Instruction`, not in this repository).
Modelled from the spec: only the opcodes the per-instruction transition
table gives a meaning to carry structure; `otherOp` stands for every
remaining opcode, which the verifier treats as unsupported.  The literal
operands of `PushInt`, `PushFloat` and `PushString` are never read by the
verifier, so the float literal is carried as an opaque tag. -/
inductive Instruction where
  | push : Nat → Instruction
  | pushInt : Int → Instruction
  | pushFloat : Nat → Instruction
  | pushString : String → Instruction
  | pushGlobal : Nat → Instruction
  | call : Nat → Instruction
  | tailCall : Nat → Instruction
  | construct : Nat → Nat → Instruction
  | getField : Nat → Instruction
  | otherOp : Nat → Instruction

/-- The verifier's mutable state during `verify`: the abstract operand
stack (`Vec` order: the last list element is the top of the stack) and the
accumulated errors (`base::error::Errors`, modelled from the spec as the
list of errors recorded so far, in order). -/
structure VState where
  stack : List AbstractType
  errors : List VError

/-- The result of a `verify` call: `Ok(())`, `Err(errors)`, or a Rust
panic (out-of-bounds indexing, arithmetic underflow, or the explicit
`panic!()` arm of `Call`/`TailCall`). -/
inductive VerifyResult where
  | ok : VerifyResult
  | err : List VError → VerifyResult
  | panicked : VerifyResult

/-- What one loop iteration of `Verifier::verify` does: continue with a new
state, or stop the whole call with a result. -/
inductive StepRes where
  | next : VState → StepRes
  | halt : VerifyResult → StepRes

/-- The `maybe_type` computation of the `GetField` arm (`verify.rs` lines
114–126): a positional field of a `Concrete` record type, or a positional
argument of a `Variant`. -/
def fieldType : AbstractType → Nat → Option AbstractType
  | .tcType t, offset =>
    match t with
    | .record fields => (fields[offset]?).map .tcType
    | _ => none
  | .variant _ args, offset => args[offset]?

/-- The `TypeMismatch` errors recorded, in order, by the argument
comparison loop of the `Call`/`TailCall` arm (`verify.rs` lines 87–93). -/
def mismatches (tyEq : TcType → TcType → Bool) (expected : List TcType)
    (actuals : List AbstractType) : List VError :=
  ((expected.zip actuals).filter
    (fun p => !equivalent tyEq (.tcType p.1) p.2)).map
    (fun p => .typeMismatch (.tcType p.1) p.2)

/-- The `Call`/`TailCall` arm (`verify.rs` lines 75–99).  When the stack
has at most `args + 1` elements, `NotEnoughArguments` is recorded and the
whole call returns the accumulated errors.  Otherwise the element at
`stack.len - args - 1` is split off as the callee: a `TcType` callee has
its formal argument types compared with the actuals (recording
`TypeMismatch`es), then `args + 1` elements are popped and the remaining
type of the argument iterator is pushed; a `Variant` callee hits the
`_ => panic!()` arm.  `Iterator::zip` pulls one extra element from the
expected-argument iterator when the actuals run out first, hence the
`min (argTypes f).length (args + 1)` consumed count. -/
def callStep (tyEq : TcType → TcType → Bool) (v : VState) (args : Nat) : StepRes :=
  if v.stack.length ≤ args + 1 then
    .halt (.err (v.errors ++ [.notEnoughArguments]))
  else
    match v.stack[v.stack.length - args - 1]? with
    | some (.tcType f) =>
      let actuals := v.stack.drop (v.stack.length - args)
      let ms := mismatches tyEq (argTypes f) actuals
      let returnType := retAfter f (min (argTypes f).length (args + 1))
      .next ⟨v.stack.take (v.stack.length - args - 1) ++ [.tcType returnType],
             v.errors ++ ms⟩
    | _ => .halt .panicked

/-- One iteration of the instruction loop of `Verifier::verify`
(`verify.rs` lines 60–137).  `tyEq` is the source-level equivalence
judgement and `globals` the global-type lookup closure handed to
`Verifier::new`. -/
def step (tyEq : TcType → TcType → Bool) (globals : Nat → Option TcType)
    (v : VState) : Instruction → StepRes
  | .push i =>
    match v.stack[i]? with
    | some t => .next ⟨v.stack ++ [t], v.errors⟩
    | none => .halt .panicked
  | .pushInt _ => .next ⟨v.stack ++ [.tcType .int], v.errors⟩
  | .pushFloat _ => .next ⟨v.stack ++ [.tcType .float], v.errors⟩
  | .pushString _ => .next ⟨v.stack ++ [.tcType .string], v.errors⟩
  | .pushGlobal offset =>
    match globals offset with
    | some typ => .next ⟨v.stack ++ [.tcType typ], v.errors⟩
    | none => .next ⟨v.stack, v.errors ++ [.undefinedGlobal offset]⟩
  | .call args => callStep tyEq v args
  | .tailCall args => callStep tyEq v args
  | .construct tag args =>
    if args ≤ v.stack.length then
      .next ⟨v.stack.take (v.stack.length - args) ++
               [.variant tag (v.stack.drop (v.stack.length - args))], v.errors⟩
    else
      .halt .panicked
  | .getField offset =>
    match v.stack.getLast? with
    | none => .next ⟨v.stack, v.errors ++ [.emptyStack]⟩
    | some top =>
      match fieldType top offset with
      | some typ => .next ⟨v.stack.dropLast ++ [typ], v.errors⟩
      | none => .next ⟨v.stack.dropLast, v.errors ++ [.fieldIsOutOfRange top offset]⟩
  | .otherOp _ => .halt (.err [])

/-- How the instruction loop ends: all instructions consumed (with the
final verifier state), or an early `return` with a result. -/
inductive RunRes where
  | fin : VState → RunRes
  | halted : VerifyResult → RunRes

/-- The instruction loop of `Verifier::verify`: execute the instructions
in order, stopping at the first early `return`. -/
def runInsts (tyEq : TcType → TcType → Bool) (globals : Nat → Option TcType) :
    List Instruction → VState → RunRes
  | [], v => .fin v
  | inst :: rest, v =>
    match step tyEq globals v inst with
    | .next v2 => runInsts tyEq globals rest v2
    | .halt r => .halted r

/-- `Verifier::verify` (`verify.rs` lines 50–144) on a fresh verifier
(`Verifier::new` starts with an empty stack and no errors): clear the
stack, push one `Concrete` argument type per formal argument of
`bytecode_type`, run the instruction loop, and finally return the
accumulated errors if any, `Ok` otherwise. -/
def verify (tyEq : TcType → TcType → Bool) (globals : Nat → Option TcType)
    (bytecodeType : TcType) (instructions : List Instruction) : VerifyResult :=
  match runInsts tyEq globals instructions ⟨(argTypes bytecodeType).map .tcType, []⟩ with
  | .fin v => if v.errors.isEmpty then .ok else .err v.errors
  | .halted r => r

/-- C1, counterexample.  The claim also demands `NotEnoughArguments` when
the element at `stack.len - n - 1` is not a `Concrete` function type.  The
code does not: with stack `[Int, Int, Int]`, `Call(1)` finds the `Concrete`
non-function callee `Int`, records nothing and succeeds; and with a
`Variant` callee the `_ => panic!()` arm panics instead of recording
`NotEnoughArguments`. -/
theorem c1_counterexample :
    verify (fun _ _ => true) (fun _ => none) (.function [.int, .int, .int] .int)
        [.call 1] = .ok ∧
    verify (fun _ _ => true) (fun _ => none) (.function [.int, .int] .int)
        [.construct 0 1, .call 0] = .panicked ∧
    VerifyResult.ok ≠ .err [.notEnoughArguments] ∧
    VerifyResult.panicked ≠ .err [.notEnoughArguments] := by
  refine ⟨rfl, rfl, fun h => ?_, fun h => ?_⟩ <;> exact VerifyResult.noConfusion h

/-- C1 (amended).  For every call to `verify`, a `Call(n)`/`TailCall(n)`
instruction records `NotEnoughArguments` and aborts — returning the errors
accumulated so far including the `NotEnoughArguments` just recorded —
exactly when the abstract stack has length `≤ n + 1`.  The element at
`stack.len - n - 1` is not checked for being a function type: a `Concrete`
callee (function or not) continues with only `TypeMismatch` errors
possibly recorded, and a `Variant` callee panics. -/
theorem c1_call_not_enough_arguments (tyEq : TcType → TcType → Bool)
    (globals : Nat → Option TcType) (v : VState) (n : Nat) (rest : List Instruction) :
    (v.stack.length ≤ n + 1 →
      runInsts tyEq globals (.call n :: rest) v
          = .halted (.err (v.errors ++ [.notEnoughArguments])) ∧
      runInsts tyEq globals (.tailCall n :: rest) v
          = .halted (.err (v.errors ++ [.notEnoughArguments]))) ∧
    (∀ f, v.stack[v.stack.length - n - 1]? = some (.tcType f) →
      ¬ v.stack.length ≤ n + 1 →
      step tyEq globals v (.call n)
          = .next ⟨v.stack.take (v.stack.length - n - 1)
                     ++ [.tcType (retAfter f (min (argTypes f).length (n + 1)))],
                   v.errors ++ mismatches tyEq (argTypes f) (v.stack.drop (v.stack.length - n))⟩ ∧
      ∀ e ∈ mismatches tyEq (argTypes f) (v.stack.drop (v.stack.length - n)),
        ∃ x y, e = .typeMismatch x y) ∧
    (∀ vtag vargs, v.stack[v.stack.length - n - 1]? = some (.variant vtag vargs) →
      ¬ v.stack.length ≤ n + 1 →
      step tyEq globals v (.call n) = .halt .panicked) := by
  refine ⟨fun h => ?_, fun f hf hlen => ?_, fun vtag vargs hf hlen => ?_⟩
  · constructor <;> simp [runInsts, step, callStep, if_pos h]
  · constructor
    · simp [step, callStep, if_neg hlen, hf]
    · intro e he
      simp only [mismatches, List.mem_map, List.mem_filter] at he
      obtain ⟨p, _, hpe⟩ := he
      exact ⟨_, _, hpe.symm⟩
  · simp [step, callStep, if_neg hlen, hf]

/-- C1, witness for the amended theorem: `Call(3)` on a two-element stack
aborts with exactly the recorded `NotEnoughArguments`. -/
theorem c1_call_not_enough_arguments_witness :
    runInsts (fun _ _ => true) (fun _ => none) [.call 3]
        ⟨[.tcType .int, .tcType .int], []⟩ = .halted (.err [.notEnoughArguments]) := by
  have h := (c1_call_not_enough_arguments (fun _ _ => true) (fun _ => none)
      ⟨[.tcType .int, .tcType .int], []⟩ 3 []).1 (by simp)
  simpa using h.1

/-- C3, counterexample.  An unsupported opcode returns `Err(Errors::new())`
— an empty error set — discarding the errors accumulated so far, so the
returned set is not the accumulated set, and an empty returned set does
not mean success. -/
theorem c3_counterexample :
    runInsts (fun _ _ => true) (fun _ => none) [.otherOp 0] ⟨[], [.undefinedGlobal 0]⟩
        = .halted (.err []) ∧
    verify (fun _ _ => true) (fun _ => none) (.other 0) [.pushGlobal 0, .otherOp 0]
        = .err [] ∧
    ([] : List VError) ≠ [.undefinedGlobal 0] := by
  refine ⟨rfl, rfl, by simp⟩

/-- C3 (amended).  `NotEnoughArguments` terminates verification
immediately, returning the errors accumulated up to that point including
it; an unsupported opcode terminates immediately but returns an empty
error set, discarding whatever was accumulated; on normal completion the
accumulated error set is returned, and an empty accumulated set means
success. -/
theorem c3_fatal_error_policy (tyEq : TcType → TcType → Bool)
    (globals : Nat → Option TcType) :
    (∀ v n rest, (v : VState).stack.length ≤ n + 1 →
      runInsts tyEq globals (.call n :: rest) v
          = .halted (.err (v.errors ++ [.notEnoughArguments]))) ∧
    (∀ (v : VState) code rest,
      runInsts tyEq globals (.otherOp code :: rest) v = .halted (.err [])) ∧
    (∀ bt insts v, runInsts tyEq globals insts ⟨(argTypes bt).map .tcType, []⟩ = .fin v →
      verify tyEq globals bt insts = if v.errors.isEmpty then .ok else .err v.errors) := by
  refine ⟨fun v n rest h => ?_, fun v code rest => ?_, fun bt insts v h => ?_⟩
  · simp [runInsts, step, callStep, if_pos h]
  · simp [runInsts, step]
  · simp [verify, h]

/-- C3, witness for the amended theorem, at a stack of two elements and
one accumulated error. -/
theorem c3_fatal_error_policy_witness :
    runInsts (fun _ _ => true) (fun _ => none) [.call 1, .pushInt 0]
        ⟨[.tcType .int, .tcType .int], [.emptyStack]⟩
      = .halted (.err [.emptyStack, .notEnoughArguments]) := by
  have h := (c3_fatal_error_policy (fun _ _ => true) (fun _ => none)).1
      ⟨[.tcType .int, .tcType .int], [.emptyStack]⟩ 1 [.pushInt 0] (by simp)
  simpa using h

/-- C4 (confirmed).  For every tag, every `n`, every `k < n`, and every
abstract stack holding at least `n` elements, verifying the pair
`Construct(tag, n); GetField(k)` records no error and ends with `args[k]`
on top of the stack, where `args` are the `n` popped elements in stack
order. -/
theorem c4_construct_getfield_roundtrip (tyEq : TcType → TcType → Bool)
    (globals : Nat → Option TcType) (tag n k : Nat)
    (s : List AbstractType) (es : List VError) (h1 : n ≤ s.length) (h2 : k < n) :
    ∃ top, (s.drop (s.length - n))[k]? = some top ∧
      runInsts tyEq globals [.construct tag n, .getField k] ⟨s, es⟩
        = .fin ⟨s.take (s.length - n) ++ [top], es⟩ := by
  have hk : k < (s.drop (s.length - n)).length := by
    rw [List.length_drop]; omega
  refine ⟨(s.drop (s.length - n)).get ⟨k, hk⟩, ?_, ?_⟩
  · simp [List.getElem?_eq_getElem hk]
  · simp only [runInsts, step, if_pos h1, List.getLast?_concat, List.dropLast_concat,
      fieldType, List.getElem?_eq_getElem hk]
    rfl

/-- C4, witness at a one-element stack, `Construct(2, 1); GetField(0)`. -/
theorem c4_construct_getfield_roundtrip_witness :
    runInsts (fun _ _ => true) (fun _ => none) [.construct 2 1, .getField 0]
        ⟨[.tcType .int], []⟩ = .fin ⟨[.tcType .int], []⟩ := by
  obtain ⟨top, hsome, hrun⟩ := c4_construct_getfield_roundtrip (fun _ _ => true)
      (fun _ => none) 2 1 0 [.tcType .int] [] (by simp) (by omega)
  simp at hsome
  subst hsome
  simpa using hrun

/-- C10 (confirmed).  On a non-empty verifier stack, `GetField(k)` pops the
top unconditionally; when the access fails, `FieldIsOutOfRange` is
recorded, nothing is pushed back, and verification continues with a stack
exactly one element shorter; the access succeeds precisely when the popped
element is a `Concrete` record with a field at position `k` or a `Variant`
with at least `k + 1` argument types. -/
theorem c10_getfield_frame_effect (tyEq : TcType → TcType → Bool)
    (globals : Nat → Option TcType) (l : List AbstractType)
    (top : AbstractType) (k : Nat) (es : List VError) :
    (fieldType top k = none →
      step tyEq globals ⟨l ++ [top], es⟩ (.getField k)
        = .next ⟨l, es ++ [.fieldIsOutOfRange top k]⟩) ∧
    (∀ t, fieldType top k = some t →
      step tyEq globals ⟨l ++ [top], es⟩ (.getField k) = .next ⟨l ++ [t], es⟩) ∧
    ((fieldType top k).isSome = true ↔
      (∃ fs, top = .tcType (.record fs) ∧ k < fs.length) ∨
      (∃ vtag vargs, top = .variant vtag vargs ∧ k < vargs.length)) := by
  refine ⟨fun h => ?_, fun t h => ?_, ?_⟩
  · simp [step, List.getLast?_concat, List.dropLast_concat, h]
  · simp [step, List.getLast?_concat, List.dropLast_concat, h]
  · match top with
    | .tcType t =>
      match t with
      | .record fs => simp [fieldType, isSome_getElem_iff]
      | .int | .float | .string | .function a r | .variants vs | .other m =>
        simp [fieldType]
    | .variant vtag vargs =>
      simp only [fieldType, isSome_getElem_iff]
      constructor
      · intro h
        exact Or.inr ⟨vtag, vargs, rfl, h⟩
      · rintro (⟨fs, hfs, _⟩ | ⟨t2, a2, he, hlen⟩)
        · exact absurd hfs (by simp)
        · cases he
          exact hlen

/-- C10, witness: `GetField(0)` on the one-element stack `[Concrete Int]`
pops the `Int`, records `FieldIsOutOfRange` and continues with the empty
stack. -/
theorem c10_getfield_frame_effect_witness :
    step (fun _ _ => true) (fun _ => none) ⟨[.tcType .int], []⟩ (.getField 0)
      = .next ⟨[], [.fieldIsOutOfRange (.tcType .int) 0]⟩ := by
  have h := (c10_getfield_frame_effect (fun _ _ => true) (fun _ => none)
      [] (.tcType .int) 0 []).1 rfl
  simpa using h

end Verify

namespace Macros

/-- Syntax-tree nodes (`base::ast::LExpr<TcIdent>`).
Modelled from the spec: the `base` crate is not in this repository; only
what `def_macro.rs` inspects is represented — each node's source location,
identifier nodes with their interned name, tuple nodes, and an opaque
constructor standing for every other expression form. -/
inductive MExpr where
  | identifier : Nat → Nat → MExpr
  | tuple : Nat → List MExpr → MExpr
  | other : Nat → Nat → MExpr

/-- The `location` field of a node. -/
def MExpr.loc : MExpr → Nat
  | .identifier l _ => l
  | .tuple l _ => l
  | .other l _ => l

/-- An entry of the macro table: the expanders `def_macro` installs are
`RunMacro { id }` values (`def_macro.rs` lines 55–57). -/
inductive MacroEntry where
  | runMacro : Nat → MacroEntry
deriving DecidableEq

/-- The VM state `DefMacro::expand` touches.
Modelled from the spec: the `VM` itself is not in this repository; the
spec describes the state `def_macro` updates as the type environment
(here: whether the syntax-tree type is registered under `Expr`), the macro
table, and the global table.  Globals hold the compiled transformer
closures, identified by the opaque id the compile oracle assigns. -/
structure VMState where
  exprTypeRegistered : Bool
  macros : List (Nat × MacroEntry)
  globals : List (Nat × Nat)
deriving DecidableEq

/-- Modelled from the spec: the macro and global tables map interned names
to entries, keys unique, installation of an existing key replacing the
previous entry. -/
def tableInsert {α : Type} (tbl : List (Nat × α)) (k : Nat) (v : α) : List (Nat × α) :=
  if tbl.any (fun p => p.1 == k) then
    tbl.map (fun p => if p.1 == k then (k, v) else p)
  else
    tbl ++ [(k, v)]

/-- The interned name of an identifier node (the match of `def_macro.rs`
lines 36–39). -/
def nameOf : MExpr → Option Nat
  | .identifier _ n => some n
  | _ => none

/-- `DefMacro::expand` (`def_macro.rs` lines 27–52), step by step: register
the syntax-tree type under `Expr` if not already present; require exactly
two arguments; require the first to be an identifier and take its interned
name; install `RunMacro` in the macro table under that name; type-check
the transformer against `Expr -> Expr` (`tc` stands for
`typecheck_expr_to`, not in this repository); compile it and allocate the
closure (`compile` stands for `compile_expr`/`new_closure`); bind the
closure to the global name (`define_global`, modelled from the spec as a
plain table binding); return a unit node at the first argument's
location. -/
def defMacroExpand (tc : MExpr → Except String MExpr) (compile : MExpr → Nat)
    (st : VMState) (arguments : List MExpr) : VMState × Except String MExpr :=
  let st1 := if st.exprTypeRegistered then st else {st with exprTypeRegistered := true}
  if arguments.length != 2 then
    (st1, .error (("Expected \x27def_macro\x27 to receive exactly 2 arguments but got ")
        ++ toString arguments.length))
  else
    match arguments with
    | a0 :: a1 :: _ =>
      match nameOf a0 with
      | none =>
        (st1,
         .error ("Expected \x27def_macro\x27 to receive an identifier as the first argument"))
      | some name =>
        let st2 := {st1 with macros := tableInsert st1.macros name (.runMacro name)}
        match tc a1 with
        | .error e => (st2, .error e)
        | .ok typedExpr =>
          let st3 := {st2 with globals := tableInsert st2.globals name (compile typedExpr)}
          (st3, .ok (.tuple a0.loc []))
    | _ => (st1, .error (""))

/-- `RunMacro::expand` (`def_macro.rs` lines 59–74).  `getFunction` stands
for `api::get_function` (not in this repository): the lookup of the global
bound to the macro's interned name as a callable `(Expr) -> Expr`; the
callable itself may fail (`f.call` returns a `Result`). -/
def runMacroExpand (getFunction : String → Option (MExpr → Except String MExpr))
    (id : String) (arguments : List MExpr) : Except String MExpr :=
  match arguments with
  | [] =>
    .error (("Expected macro \x27") ++ id ++ ("\x27 to receive atleast 1 argument"))
  | arg :: _ =>
    match getFunction id with
    | none => .error (("Expected macro function \x27") ++ id ++ ("\x27 to exist"))
    | some f => f arg

theorem registered_st_eta (st : VMState) :
    (if st.exprTypeRegistered then st else {st with exprTypeRegistered := true})
      = {st with exprTypeRegistered := true} := by
  by_cases h : st.exprTypeRegistered
  · cases st
    simp_all
  · simp [h]

/-- C2, counterexample.  With an unregistered `Expr` type, an empty macro
table and an empty global table, invoking `def_macro` on an identifier and
a transformer that fails to type-check leaves the `Expr` type registered
and the `RunMacro` expander installed in the macro table even though the
expansion fails — the tables are not left unchanged, so the expansion is
not atomic. -/
theorem c2_counterexample :
    defMacroExpand (fun _ => .error ("transformer type error")) (fun _ => 0)
        ⟨false, [], []⟩ [.identifier 0 7, .other 0 0]
      = (⟨true, [(7, .runMacro 7)], []⟩, .error ("transformer type error")) ∧
    (⟨true, [(7, .runMacro 7)], []⟩ : VMState) ≠ ⟨false, [], []⟩ := by
  exact ⟨rfl, by decide⟩

/-- C2 (amended).  `def_macro` expansion is not atomic.  On every
invocation the `Expr` type registration takes effect first and persists
across failures.  A wrong argument count or a non-identifier first
argument fails before the macro table or global table change.  The
`RunMacro{id: N}` expander is installed before the transformer is
type-checked, so a transformer that fails to type-check leaves the new
macro-table entry behind (globals unchanged).  Only on success are all
effects performed — registration, macro install, type-check, compile,
global binding — and a unit node at the first argument's location
returned. -/
theorem c2_def_macro_effects (tc : MExpr → Except String MExpr) (compile : MExpr → Nat)
    (st : VMState) :
    (∀ arguments, ((defMacroExpand tc compile st arguments).1).exprTypeRegistered = true) ∧
    (∀ arguments, arguments.length ≠ 2 →
      defMacroExpand tc compile st arguments
        = ({st with exprTypeRegistered := true},
           .error (("Expected \x27def_macro\x27 to receive exactly 2 arguments but got ")
             ++ toString arguments.length))) ∧
    (∀ a0 a1, nameOf a0 = none →
      defMacroExpand tc compile st [a0, a1]
        = ({st with exprTypeRegistered := true},
           .error ("Expected \x27def_macro\x27 to receive an identifier as the first argument"))) ∧
    (∀ a0 a1 name e, nameOf a0 = some name → tc a1 = .error e →
      defMacroExpand tc compile st [a0, a1]
        = ({st with
              exprTypeRegistered := true,
              macros := tableInsert st.macros name (.runMacro name)}, .error e)) ∧
    (∀ a0 a1 name t2, nameOf a0 = some name → tc a1 = .ok t2 →
      defMacroExpand tc compile st [a0, a1]
        = ({st with
              exprTypeRegistered := true,
              macros := tableInsert st.macros name (.runMacro name),
              globals := tableInsert st.globals name (compile t2)},
           .ok (.tuple a0.loc []))) := by
  refine ⟨fun arguments => ?_, fun arguments h => ?_, fun a0 a1 h => ?_,
    fun a0 a1 name e hn ht => ?_, fun a0 a1 name t2 hn ht => ?_⟩
  · unfold defMacroExpand
    rw [registered_st_eta]
    by_cases h2 : arguments.length != 2
    · simp [h2]
    · simp only [h2, if_false, Bool.false_eq_true]
      match arguments with
      | a0 :: a1 :: rest =>
        match hn : nameOf a0 with
        | none => simp [hn]
        | some name =>
          match ht : tc a1 with
          | .error e => simp [hn, ht]
          | .ok t2 => simp [hn, ht]
      | [] => simp at h2
      | [a] => simp at h2
  · unfold defMacroExpand
    rw [registered_st_eta]
    have h2 : (arguments.length != 2) = true := by simpa using h
    simp [h2]
  · unfold defMacroExpand
    rw [registered_st_eta]
    simp [h]
  · unfold defMacroExpand
    rw [registered_st_eta]
    simp [hn, ht]
  · unfold defMacroExpand
    rw [registered_st_eta]
    simp [hn, ht]

/-- C2, witness for the amended theorem: the success path performs all
effects and returns a unit node. -/
theorem c2_def_macro_effects_witness :
    defMacroExpand (fun e => .ok e) (fun _ => 42) ⟨false, [], []⟩
        [.identifier 1 5, .other 2 3]
      = (⟨true, [(5, .runMacro 5)], [(5, 42)]⟩, .ok (.tuple 1 [])) := by
  have h := (c2_def_macro_effects (fun e => .ok e) (fun _ => 42) ⟨false, [], []⟩).2.2.2.2
      (.identifier 1 5) (.other 2 3) 5 (.other 2 3) rfl rfl
  rw [h]
  rfl

/-- C9, counterexample.  The error message produced for an empty argument
list spells `atleast`, not `at least` as the claim states. -/
theorem c9_counterexample :
    runMacroExpand (fun _ => none) ("m") []
      = .error ("Expected macro \x27m\x27 to receive atleast 1 argument") ∧
    ("Expected macro \x27m\x27 to receive atleast 1 argument" : String)
      ≠ ("Expected macro \x27m\x27 to receive at least 1 argument") := by
  exact ⟨rfl, by decide⟩

/-- C9 (amended).  For every invocation of a `RunMacro` expander with
fewer than one argument, the expansion fails with exactly the message
`Expected macro '<id>' to receive atleast 1 argument` (the macro's
interned name substituted for `<id>`, and `atleast` spelled without a
space), and no macro function is looked up or invoked: the result does not
depend on the function table. -/
theorem c9_runmacro_arity_error (getFunction : String → Option (MExpr → Except String MExpr))
    (id : String) (arguments : List MExpr) (h : arguments.length < 1) :
    runMacroExpand getFunction id arguments
      = .error (("Expected macro \x27") ++ id ++ ("\x27 to receive atleast 1 argument")) := by
  match arguments with
  | [] => rfl
  | _ :: _ => simp at h

/-- C9, witness: the empty argument list at a concrete macro name. -/
theorem c9_runmacro_arity_error_witness :
    runMacroExpand (fun _ => some (fun e => .ok e)) ("id") []
      = .error ("Expected macro \x27id\x27 to receive atleast 1 argument") := by
  have h := c9_runmacro_arity_error (fun _ => some (fun e => .ok e)) ("id") [] (by simp)
  rw [h]
  rfl

end Macros

namespace Handles

/-- A heap handle (`GcPtr`, `gc.rs` lines 275–277): a copyable non-owning
reference, represented by the address it stores.  The `ptr` field is
private in the source; it appears here so the development can state which
relations the handle's interface does and does not provide. -/
structure GcPtr where
  ptr : Nat
deriving DecidableEq

/-- `impl PartialEq for GcPtr` (`gc.rs` lines 301–305): dereference both
handles and compare the payloads — structural equality.  `deref` stands
for the heap, mapping an address to the payload stored there. -/
def gcPtrEq {α : Type} [BEq α] (deref : Nat → α) (a b : GcPtr) : Bool :=
  deref a.ptr == deref b.ptr

/-- Raw identity of two handles: they address the same object. -/
def gcPtrSameObject (a b : GcPtr) : Prop := a.ptr = b.ptr

/-- C8, counterexample.  Under the handle's exposed equality
(`PartialEq`), two handles addressing different objects with equal
payloads compare equal, so the exposed comparison is not the raw-identity
view the claim offers: only the structural view is exposed (the `ptr`
field is private to `gc.rs`). -/
theorem c8_counterexample :
    gcPtrEq (fun _ => (0 : Nat)) ⟨0⟩ ⟨1⟩ = true ∧
    ¬ gcPtrSameObject ⟨0⟩ ⟨1⟩ := by
  exact ⟨rfl, by simp [gcPtrSameObject]⟩

/-- C8 (amended).  The handle's exposed equality (`PartialEq`) is
structural: two handles compare equal iff their payloads compare equal.
Handles addressing the same object always compare equal, but raw identity
is a strictly finer relation — it coincides with equality of the private
`ptr` field and is not a second exposed comparison view. -/
theorem c8_handle_equality {α : Type} [BEq α] [LawfulBEq α] (deref : Nat → α)
    (a b : GcPtr) :
    (gcPtrEq deref a b = true ↔ deref a.ptr = deref b.ptr) ∧
    (gcPtrSameObject a b → gcPtrEq deref a b = true) ∧
    (gcPtrSameObject a b ↔ a = b) := by
  refine ⟨?_, fun h => ?_, ?_⟩
  · simp [gcPtrEq]
  · simp [gcPtrEq, gcPtrSameObject] at h ⊢
    rw [h]
  · cases a
    cases b
    simp [gcPtrSameObject]

/-- C8, witness: identical handles compare equal under the exposed
(structural) equality. -/
theorem c8_handle_equality_witness :
    gcPtrEq (fun n => n) ⟨3⟩ ⟨3⟩ = true :=
  (c8_handle_equality (fun n => n) ⟨3⟩ ⟨3⟩).2.1 rfl

end Handles

namespace Gc

/-- One allocation on the live list, as the collector sees it (`gc.rs`: an
`AllocPtr` whose header carries the mark bit, together with its payload's
`Traverseable` capability).  `id` stands for the machine address
identifying the allocation, `size` for `AllocPtr::size()` — header plus
payload bytes — and `fields` for the handles the payload yields to
`traverse`, in traversal order. -/
structure GcObj where
  id : Nat
  size : Nat
  marked : Bool
  fields : List Nat
deriving DecidableEq

/-- `TypedGc` (`gc.rs` lines 109–114): the live list (head = most recent
allocation), the running byte counter and the collection limit.  `nextId`
stands for the allocator's choice of the next fresh address. -/
structure GcState where
  values : List GcObj
  allocated_memory : Nat
  collect_limit : Nat
  nextId : Nat
deriving DecidableEq

/-- `TypedGc::new` (`gc.rs` lines 484–490): empty live list, zero
allocated bytes, and a collection limit of 100 bytes. -/
def TypedGc.new : GcState := ⟨[], 0, 100, 0⟩

/-- Recovering the allocation a handle addresses (the header arithmetic of
`mark_header`/`GcPtr::header`): the live-list entry with the handle's
address. -/
def lookupObj : List GcObj → Nat → Option GcObj
  | [], _ => none
  | o :: vs, i => if o.id == i then some o else lookupObj vs i

/-- Setting the mark bit of the allocation at address `i`
(`header.marked.set(true)` in `mark_header`, `gc.rs` lines 158–171). -/
def setMarked (vs : List GcObj) (i : Nat) : List GcObj :=
  vs.map (fun o => if o.id == i then {o with marked := true} else o)

/-- The number of unmarked allocations on a live list — the measure that
shrinks each time the mark traversal recurses. -/
def unmarkedCount (vs : List GcObj) : Nat :=
  (vs.filter (fun o => !o.marked)).length

/-- `Traverseable for GcPtr` (`gc.rs` lines 453–466) together with
`mark_header` (lines 158–176): visiting handle `i` observes-and-sets its
mark bit, and recurses into the payload's handles only when the bit was
clear.  The source recursion terminates because every recursive level
first marks a previously unmarked object; here that argument appears as an
explicit `fuel` bound, shown sufficient — and the result shown
fuel-independent — in the theorems below. -/
def markOne (fuel : Nat) (vs : List GcObj) (i : Nat) : List GcObj :=
  match fuel with
  | 0 => vs
  | fuel + 1 =>
    match lookupObj vs i with
    | none => vs
    | some o =>
      if o.marked then vs
      else o.fields.foldl (markOne fuel) (setMarked vs i)

/-- Marking every handle of a root list in order (the `traverse` of a
sequence of handles). -/
def markList (fuel : Nat) (vs : List GcObj) (roots : List Nat) : List GcObj :=
  roots.foldl (markOne fuel) vs

/-- The mark pass of `TypedGc::collect` (`roots.traverse(self)`,
`gc.rs` line 527), with fuel one more than the number of unmarked
allocations — enough for the traversal to stabilise. -/
def markPhase (roots : List Nat) (g : GcState) : GcState :=
  {g with values := markList (unmarkedCount g.values + 1) g.values roots}

/-- `TypedGc::sweep` (`gc.rs` lines 551–576) with `free` (lines 578–583):
unlink and deallocate every unmarked allocation, subtracting its size from
`allocated_memory`, and clear the mark bit of every survivor. -/
def sweep (g : GcState) : GcState :=
  {g with
    values := (g.values.filter (fun o => o.marked)).map (fun o => {o with marked := false}),
    allocated_memory :=
      g.allocated_memory - ((g.values.filter (fun o => !o.marked)).map (fun o => o.size)).sum}

/-- `TypedGc::collect` (`gc.rs` lines 523–530): mark from the roots, sweep,
then set the limit to twice the allocated memory left after the sweep. -/
def collect (roots : List Nat) (g : GcState) : GcState :=
  let g2 := sweep (markPhase roots g)
  {g2 with collect_limit := 2 * g2.allocated_memory}

/-- An allocation descriptor (`DataDef`, `gc.rs` lines 126–130),
abstracted over memory layout: `dsize` is `size()`, `fields` the handles
the initialised payload holds (its `Traverseable`), and `initRet` the
address the `initialize` callback returns when handed a given address —
the source asserts that it returns its argument. -/
structure GcDataDef where
  dsize : Nat
  fields : List Nat
  initRet : Nat → Nat

/-- `TypedGc::alloc` (`gc.rs` lines 503–519).  `headerOverhead` stands for
`value_offset`, the header-plus-padding bytes preceding the payload, so the
allocation contributes `headerOverhead + dsize` bytes (`AllocPtr::size()`)
to `allocated_memory`.  The new header is linked at the head of the live
list, unmarked; the descriptor's initialiser is invoked exactly once on the
fresh address, and `none` models the `assert!(ret == p)` panic when the
address it returns differs from the one it was handed; otherwise the
handle to the initialised payload is returned. -/
def alloc (headerOverhead : Nat) (d : GcDataDef) (g : GcState) : Option (Nat × GcState) :=
  let p := g.nextId
  let objSize := headerOverhead + d.dsize
  if d.initRet p = p then
    some (p,
      {g with
        values := ⟨p, objSize, false, d.fields⟩ :: g.values,
        allocated_memory := g.allocated_memory + objSize,
        nextId := g.nextId + 1})
  else
    none

/-- `TypedGc::alloc_and_collect` (`gc.rs` lines 493–501): collect first
when `allocated_memory >= collect_limit`, traversing both `roots` and the
descriptor as the root set, then allocate. -/
def allocAndCollect (headerOverhead : Nat) (roots : List Nat) (d : GcDataDef)
    (g : GcState) : Option (Nat × GcState) :=
  let g2 := if g.allocated_memory ≥ g.collect_limit then collect (roots ++ d.fields) g else g
  alloc headerOverhead d g2

/-- The handle `i` addresses an allocation on the live list. -/
def LiveAt (vs : List GcObj) (i : Nat) : Prop := ∃ o, lookupObj vs i = some o

/-- The mark bit of the allocation a handle addresses (`false` for a
handle that addresses nothing). -/
def isMarkedB (vs : List GcObj) (i : Nat) : Bool :=
  match lookupObj vs i with
  | some o => o.marked
  | none => false

/-- One points-to edge of the heap graph: the allocation at address `i`
holds handle `j` in its payload. -/
def Edge (vs : List GcObj) (i j : Nat) : Prop :=
  ∃ o, lookupObj vs i = some o ∧ j ∈ o.fields

/-- `j` is reachable from the root handles: `j` addresses a live
allocation and some root reaches it along points-to edges. -/
def Reached (vs : List GcObj) (roots : List Nat) (j : Nat) : Prop :=
  LiveAt vs j ∧ ∃ r ∈ roots, Relation.ReflTransGen (Edge vs) r j

/-- The mark pass only sets mark bits: the live list keeps its length,
ids, sizes and field lists, and marks only grow. -/
def Grows (vs vs2 : List GcObj) : Prop :=
  List.Forall₂ (fun a b => a.id = b.id ∧ a.size = b.size ∧ a.fields = b.fields ∧
    (a.marked = true → b.marked = true)) vs vs2

theorem grows_refl (vs : List GcObj) : Grows vs vs := by
  induction vs with
  | nil => exact List.Forall₂.nil
  | cons o vs ih => exact List.Forall₂.cons ⟨rfl, rfl, rfl, fun h => h⟩ ih

theorem grows_trans {a b c : List GcObj} (h1 : Grows a b) (h2 : Grows b c) :
    Grows a c := by
  induction h1 generalizing c with
  | nil => cases h2; exact List.Forall₂.nil
  | cons hab h ih =>
    cases h2 with
    | cons hbc h2 =>
      exact List.Forall₂.cons
        ⟨hab.1.trans hbc.1, hab.2.1.trans hbc.2.1, hab.2.2.1.trans hbc.2.2.1,
         fun hm => hbc.2.2.2 (hab.2.2.2 hm)⟩ (ih h2)

theorem grows_setMarked (vs : List GcObj) (i : Nat) : Grows vs (setMarked vs i) := by
  induction vs with
  | nil => exact List.Forall₂.nil
  | cons o vs ih =>
    rw [show setMarked (o :: vs) i
        = (if o.id == i then {o with marked := true} else o) :: setMarked vs i from rfl]
    refine List.Forall₂.cons ?_ ih
    by_cases h : o.id = i <;> simp [h]

theorem lookup_grows {vs vs2 : List GcObj} (h : Grows vs vs2) (i : Nat) :
    (lookupObj vs i = none ↔ lookupObj vs2 i = none) ∧
    (∀ o, lookupObj vs i = some o → ∃ o2, lookupObj vs2 i = some o2 ∧
      o2.id = o.id ∧ o2.size = o.size ∧ o2.fields = o.fields ∧
      (o.marked = true → o2.marked = true)) ∧
    (∀ o2, lookupObj vs2 i = some o2 → ∃ o, lookupObj vs i = some o ∧
      o2.id = o.id ∧ o2.size = o.size ∧ o2.fields = o.fields ∧
      (o.marked = true → o2.marked = true)) := by
  induction h with
  | nil => simp [lookupObj]
  | @cons a b as bs hab h2 ih =>
    obtain ⟨hid, hsz, hfl, hmk⟩ := hab
    by_cases ha : a.id = i
    · have hb : b.id = i := hid ▸ ha
      refine ⟨by simp [lookupObj, ha, hb], fun o ho => ?_, fun o2 ho2 => ?_⟩
      · simp only [lookupObj] at ho ⊢
        rw [if_pos (by simp [ha])] at ho
        rw [if_pos (by simp [hb])]
        simp only [Option.some.injEq] at ho
        subst ho
        exact ⟨b, rfl, hid.symm, hsz.symm, hfl.symm, hmk⟩
      · simp only [lookupObj] at ho2 ⊢
        rw [if_pos (by simp [hb])] at ho2
        rw [if_pos (by simp [ha])]
        simp only [Option.some.injEq] at ho2
        subst ho2
        exact ⟨a, rfl, hid.symm, hsz.symm, hfl.symm, hmk⟩
    · have hb : ¬ b.id = i := fun hbi => ha (hid.symm ▸ hbi)
      simpa [lookupObj, ha, hb] using ih

theorem liveAt_of_grows {vs vs2 : List GcObj} (h : Grows vs vs2) (i : Nat) :
    LiveAt vs i ↔ LiveAt vs2 i := by
  obtain ⟨h1, h2, h3⟩ := lookup_grows h i
  constructor
  · rintro ⟨o, ho⟩
    obtain ⟨o2, ho2, _⟩ := h2 o ho
    exact ⟨o2, ho2⟩
  · rintro ⟨o2, ho2⟩
    obtain ⟨o, ho, _⟩ := h3 o2 ho2
    exact ⟨o, ho⟩

theorem edge_of_grows {vs vs2 : List GcObj} (h : Grows vs vs2) (i j : Nat) :
    Edge vs i j ↔ Edge vs2 i j := by
  obtain ⟨h1, h2, h3⟩ := lookup_grows h i
  constructor
  · rintro ⟨o, ho, hj⟩
    obtain ⟨o2, ho2, _, _, hfl, _⟩ := h2 o ho
    exact ⟨o2, ho2, hfl ▸ hj⟩
  · rintro ⟨o2, ho2, hj⟩
    obtain ⟨o, ho, _, _, hfl, _⟩ := h3 o2 ho2
    exact ⟨o, ho, hfl.symm ▸ hj⟩

theorem isMarkedB_of_grows {vs vs2 : List GcObj} (h : Grows vs vs2) (i : Nat)
    (hm : isMarkedB vs i = true) : isMarkedB vs2 i = true := by
  obtain ⟨h1, h2, h3⟩ := lookup_grows h i
  unfold isMarkedB at hm ⊢
  cases ho : lookupObj vs i with
  | none => rw [ho] at hm; simp at hm
  | some o =>
    rw [ho] at hm
    obtain ⟨o2, ho2, _, _, _, hmk⟩ := h2 o ho
    rw [ho2]
    exact hmk hm

theorem rtg_edge_of_grows {vs vs2 : List GcObj} (h : Grows vs vs2) (x y : Nat)
    (hp : Relation.ReflTransGen (Edge vs) x y) :
    Relation.ReflTransGen (Edge vs2) x y :=
  Relation.ReflTransGen.mono (fun a b hab => (edge_of_grows h a b).mp hab) hp

theorem grows_foldl {f : List GcObj → Nat → List GcObj}
    (hf : ∀ ws x, Grows ws (f ws x)) :
    ∀ (l : List Nat) (ws : List GcObj), Grows ws (l.foldl f ws) := by
  intro l
  induction l with
  | nil => intro ws; exact grows_refl ws
  | cons x l ih => intro ws; exact grows_trans (hf ws x) (ih (f ws x))

theorem grows_markOne : ∀ (fuel : Nat) (vs : List GcObj) (i : Nat),
    Grows vs (markOne fuel vs i) := by
  intro fuel
  induction fuel with
  | zero => intro vs i; exact grows_refl vs
  | succ fuel ih =>
    intro vs i
    cases hl : lookupObj vs i with
    | none => simp [markOne, hl]; exact grows_refl vs
    | some o =>
      by_cases hm : o.marked
      · simp [markOne, hl, hm]; exact grows_refl vs
      · simp only [markOne, hl, hm, if_false, Bool.false_eq_true]
        exact grows_trans (grows_setMarked vs i) (grows_foldl ih o.fields (setMarked vs i))

theorem grows_markList (fuel : Nat) (vs : List GcObj) (roots : List Nat) :
    Grows vs (markList fuel vs roots) :=
  grows_foldl (grows_markOne fuel) roots vs

theorem unmarkedCount_cons (o : GcObj) (vs : List GcObj) :
    unmarkedCount (o :: vs) = (if o.marked then 0 else 1) + unmarkedCount vs := by
  by_cases h : o.marked <;> simp [unmarkedCount, List.filter, h] <;> omega

theorem unmarkedCount_of_grows {vs vs2 : List GcObj} (h : Grows vs vs2) :
    unmarkedCount vs2 ≤ unmarkedCount vs := by
  induction h with
  | nil => simp [unmarkedCount]
  | @cons a b as bs hab h2 ih =>
    rw [unmarkedCount_cons, unmarkedCount_cons]
    have hmk := hab.2.2.2
    by_cases hb : b.marked
    · by_cases ha : a.marked <;> simp [ha, hb] <;> omega
    · have ha : ¬ a.marked = true := fun hm => hb (hmk hm)
      simp only [Bool.not_eq_true] at ha
      simp [ha, hb]
      omega

theorem lookup_mem {vs : List GcObj} {i : Nat} {o : GcObj}
    (h : lookupObj vs i = some o) : o ∈ vs := by
  induction vs with
  | nil => simp [lookupObj] at h
  | cons a vs ih =>
    by_cases ha : a.id = i
    · rw [lookupObj, if_pos (by simp [ha])] at h
      simp only [Option.some.injEq] at h
      subst h
      exact List.mem_cons_self a vs
    · rw [lookupObj, if_neg (by simp [ha])] at h
      exact List.mem_cons_of_mem a (ih h)

theorem lookup_id {vs : List GcObj} {i : Nat} {o : GcObj}
    (h : lookupObj vs i = some o) : o.id = i := by
  induction vs with
  | nil => simp [lookupObj] at h
  | cons a vs ih =>
    by_cases ha : a.id = i
    · rw [lookupObj, if_pos (by simp [ha])] at h
      simp only [Option.some.injEq] at h
      subst h
      exact ha
    · rw [lookupObj, if_neg (by simp [ha])] at h
      exact ih h

theorem lookup_none_of_ids {vs : List GcObj} {i : Nat}
    (h : ∀ o ∈ vs, o.id ≠ i) : lookupObj vs i = none := by
  induction vs with
  | nil => rfl
  | cons a vs ih =>
    rw [lookupObj, if_neg (by simp [h a (List.mem_cons_self a vs)])]
    exact ih fun o ho => h o (List.mem_cons_of_mem a ho)

theorem unmarkedCount_pos {vs : List GcObj} {i : Nat} {o : GcObj}
    (h : lookupObj vs i = some o) (hm : o.marked = false) :
    1 ≤ unmarkedCount vs := by
  have hmem : o ∈ vs.filter (fun o => !o.marked) :=
    List.mem_filter.mpr ⟨lookup_mem h, by simp [hm]⟩
  have := List.length_pos.mpr (List.ne_nil_of_mem hmem)
  simpa [unmarkedCount] using this

theorem unmarked_zero {vs : List GcObj} (h : unmarkedCount vs = 0) :
    ∀ o ∈ vs, o.marked = true := by
  intro o ho
  by_contra hm
  have hmem : o ∈ vs.filter (fun o => !o.marked) :=
    List.mem_filter.mpr ⟨ho, by simp [Bool.not_eq_true] at hm ⊢; exact hm⟩
  rw [unmarkedCount, List.length_eq_zero] at h
  simp [h] at hmem

theorem lookup_setMarked (vs : List GcObj) (i j : Nat) :
    lookupObj (setMarked vs i) j
      = (lookupObj vs j).map (fun o => if o.id == i then {o with marked := true} else o) := by
  induction vs with
  | nil => simp [setMarked, lookupObj]
  | cons a vs ih =>
    rw [show setMarked (a :: vs) i
        = (if a.id == i then {a with marked := true} else a) :: setMarked vs i from rfl]
    by_cases hai : a.id = i
    · rw [if_pos (by simp [hai])]
      by_cases haj : a.id = j
      · rw [lookupObj, if_pos (by simp [haj]), lookupObj, if_pos (by simp [haj])]
        simp [hai]
      · rw [lookupObj, if_neg (by simp [haj]), lookupObj, if_neg (by simp [haj])]
        exact ih
    · rw [if_neg (by simp [hai])]
      by_cases haj : a.id = j
      · rw [lookupObj, if_pos (by simp [haj]), lookupObj, if_pos (by simp [haj])]
        simp [hai]
      · rw [lookupObj, if_neg (by simp [haj]), lookupObj, if_neg (by simp [haj])]
        exact ih

theorem unmarkedCount_setMarked_lt {vs : List GcObj} {i : Nat} {o : GcObj}
    (h : lookupObj vs i = some o) (hm : o.marked = false) :
    unmarkedCount (setMarked vs i) < unmarkedCount vs := by
  induction vs with
  | nil => simp [lookupObj] at h
  | cons a vs ih =>
    rw [show setMarked (a :: vs) i
        = (if a.id == i then {a with marked := true} else a) :: setMarked vs i from rfl]
    by_cases hai : a.id = i
    · rw [lookupObj, if_pos (by simp [hai])] at h
      simp only [Option.some.injEq] at h
      subst h
      rw [if_pos (by simp [hai])]
      rw [unmarkedCount_cons, unmarkedCount_cons]
      have hle := unmarkedCount_of_grows (grows_setMarked vs i)
      simp [hm]
      omega
    · rw [lookupObj, if_neg (by simp [hai])] at h
      rw [if_neg (by simp [hai])]
      rw [unmarkedCount_cons, unmarkedCount_cons]
      have := ih h
      omega

theorem isMarkedB_setMarked_self {vs : List GcObj} {i : Nat} {o : GcObj}
    (h : lookupObj vs i = some o) : isMarkedB (setMarked vs i) i = true := by
  rw [isMarkedB, lookup_setMarked, h]
  simp [lookup_id h]

theorem isMarkedB_setMarked_cases {vs : List GcObj} {i j : Nat}
    (h : isMarkedB (setMarked vs i) j = true) :
    isMarkedB vs j = true ∨ j = i := by
  rw [isMarkedB, lookup_setMarked] at h
  cases ho : lookupObj vs j with
  | none => rw [ho] at h; simp at h
  | some o =>
    rw [ho] at h
    simp only [Option.map_some'] at h
    by_cases hoi : o.id = i
    · exact Or.inr ((lookup_id ho).symm.trans hoi)
    · rw [if_neg (by simp [hoi])] at h
      exact Or.inl (by rw [isMarkedB, ho]; exact h)

theorem markOne_zero (vs : List GcObj) (i : Nat) : markOne 0 vs i = vs := rfl

theorem markOne_succ_of_marked {fuel : Nat} {vs : List GcObj} {i : Nat} {o : GcObj}
    (h : lookupObj vs i = some o) (hm : o.marked = true) :
    markOne (fuel + 1) vs i = vs := by
  simp [markOne, h, hm]

theorem markOne_succ_of_none {fuel : Nat} {vs : List GcObj} {i : Nat}
    (h : lookupObj vs i = none) : markOne (fuel + 1) vs i = vs := by
  simp [markOne, h]

theorem markOne_succ_of_unmarked {fuel : Nat} {vs : List GcObj} {i : Nat} {o : GcObj}
    (h : lookupObj vs i = some o) (hm : o.marked = false) :
    markOne (fuel + 1) vs i = o.fields.foldl (markOne fuel) (setMarked vs i) := by
  simp [markOne, h, hm]

theorem markOne_succ_eq : ∀ (fuel : Nat) (vs : List GcObj) (i : Nat),
    unmarkedCount vs ≤ fuel → markOne (fuel + 1) vs i = markOne fuel vs i := by
  intro fuel
  induction fuel with
  | zero =>
    intro vs i h
    cases hl : lookupObj vs i with
    | none => rw [markOne_succ_of_none hl, markOne_zero]
    | some o =>
      cases hm : o.marked with
      | true => rw [markOne_succ_of_marked hl hm, markOne_zero]
      | false => exact absurd h (by have := unmarkedCount_pos hl hm; omega)
  | succ fuel ih =>
    intro vs i h
    cases hl : lookupObj vs i with
    | none => rw [markOne_succ_of_none hl, markOne_succ_of_none hl]
    | some o =>
      cases hm : o.marked with
      | true => rw [markOne_succ_of_marked hl hm, markOne_succ_of_marked hl hm]
      | false =>
        rw [markOne_succ_of_unmarked hl hm, markOne_succ_of_unmarked hl hm]
        have hlt : unmarkedCount (setMarked vs i) ≤ fuel := by
          have := unmarkedCount_setMarked_lt hl hm
          omega
        have fold : ∀ (l : List Nat) (ws : List GcObj), unmarkedCount ws ≤ fuel →
            l.foldl (markOne (fuel + 1)) ws = l.foldl (markOne fuel) ws := by
          intro l
          induction l with
          | nil => intro ws _; rfl
          | cons x l ihl =>
            intro ws hws
            rw [List.foldl_cons, List.foldl_cons, ih ws x hws]
            exact ihl (markOne fuel ws x)
              (le_trans (unmarkedCount_of_grows (grows_markOne fuel ws x)) hws)
        exact fold o.fields (setMarked vs i) hlt

theorem markOne_fuel_stable : ∀ (k fuel : Nat) (vs : List GcObj) (i : Nat),
    unmarkedCount vs ≤ fuel → markOne (fuel + k) vs i = markOne fuel vs i := by
  intro k
  induction k with
  | zero => intro fuel vs i _; rfl
  | succ k ih =>
    intro fuel vs i h
    have : fuel + (k + 1) = (fuel + k) + 1 := by omega
    rw [this, markOne_succ_eq (fuel + k) vs i (by omega), ih fuel vs i h]

theorem markOne_fuel_indep {vs : List GcObj} {i : Nat} {f1 f2 : Nat}
    (h1 : unmarkedCount vs ≤ f1) (h2 : unmarkedCount vs ≤ f2) :
    markOne f1 vs i = markOne f2 vs i := by
  rcases Nat.le_total f1 f2 with h | h
  · have : f2 = f1 + (f2 - f1) := by omega
    rw [this, markOne_fuel_stable (f2 - f1) f1 vs i h1]
  · have : f1 = f2 + (f1 - f2) := by omega
    rw [this, markOne_fuel_stable (f1 - f2) f2 vs i h2]

theorem markOne_sound : ∀ (fuel : Nat) (vs : List GcObj) (i j : Nat),
    isMarkedB (markOne fuel vs i) j = true →
    isMarkedB vs j = true ∨ Relation.ReflTransGen (Edge vs) i j := by
  intro fuel
  induction fuel with
  | zero => intro vs i j h; exact Or.inl h
  | succ fuel ih =>
    have fold : ∀ (l : List Nat) (ws : List GcObj) (j : Nat),
        isMarkedB (l.foldl (markOne fuel) ws) j = true →
        isMarkedB ws j = true ∨ ∃ x ∈ l, Relation.ReflTransGen (Edge ws) x j := by
      intro l
      induction l with
      | nil => intro ws j h; exact Or.inl h
      | cons x l ihl =>
        intro ws j h
        rw [List.foldl_cons] at h
        rcases ihl (markOne fuel ws x) j h with hm | ⟨y, hy, hpath⟩
        · rcases ih ws x j hm with hm2 | hpath
          · exact Or.inl hm2
          · exact Or.inr ⟨x, List.mem_cons_self x l, hpath⟩
        · have hg := grows_markOne fuel ws x
          refine Or.inr ⟨y, List.mem_cons_of_mem x hy, ?_⟩
          exact Relation.ReflTransGen.mono
            (fun a b hab => (edge_of_grows hg a b).mpr hab) hpath
    intro vs i j h
    cases hl : lookupObj vs i with
    | none => rw [markOne_succ_of_none hl] at h; exact Or.inl h
    | some o =>
      cases hm : o.marked with
      | true => rw [markOne_succ_of_marked hl hm] at h; exact Or.inl h
      | false =>
        rw [markOne_succ_of_unmarked hl hm] at h
        rcases fold o.fields (setMarked vs i) j h with hm2 | ⟨x, hx, hpath⟩
        · rcases isMarkedB_setMarked_cases hm2 with hm3 | rfl
          · exact Or.inl hm3
          · exact Or.inr Relation.ReflTransGen.refl
        · have hg := grows_setMarked vs i
          have hpath2 : Relation.ReflTransGen (Edge vs) x j :=
            Relation.ReflTransGen.mono
              (fun a b hab => (edge_of_grows hg a b).mpr hab) hpath
          exact Or.inr (Relation.ReflTransGen.head ⟨o, hl, hx⟩ hpath2)

/-- Mark-phase closure up to excused edges: every handle held by a marked
live allocation is itself marked unless its edge is still pending. -/
def ClosedExc (vs : List GcObj) (E : List (Nat × Nat)) : Prop :=
  ∀ a oa, lookupObj vs a = some oa → oa.marked = true →
    ∀ b ∈ oa.fields, LiveAt vs b → isMarkedB vs b = true ∨ (a, b) ∈ E

theorem markOne_complete : ∀ (fuel : Nat) (vs : List GcObj) (i : Nat)
    (E : List (Nat × Nat)),
    unmarkedCount vs ≤ fuel → ClosedExc vs E →
    ClosedExc (markOne fuel vs i) E ∧
    (LiveAt vs i → isMarkedB (markOne fuel vs i) i = true) := by
  intro fuel
  induction fuel with
  | zero =>
    intro vs i E h hC
    refine ⟨hC, ?_⟩
    rintro ⟨o, ho⟩
    have hall : o.marked = true := unmarked_zero (by omega) o (lookup_mem ho)
    rw [markOne_zero, isMarkedB, ho]
    exact hall
  | succ fuel ih =>
    intro vs i E h hC
    cases hl : lookupObj vs i with
    | none =>
      rw [markOne_succ_of_none hl]
      refine ⟨hC, ?_⟩
      rintro ⟨o, ho⟩
      rw [hl] at ho
      exact Option.noConfusion ho
    | some o =>
      cases hm : o.marked with
      | true =>
        rw [markOne_succ_of_marked hl hm]
        exact ⟨hC, fun _ => by rw [isMarkedB, hl]; exact hm⟩
      | false =>
        rw [markOne_succ_of_unmarked hl hm]
        have hfuel2 : unmarkedCount (setMarked vs i) ≤ fuel := by
          have := unmarkedCount_setMarked_lt hl hm
          omega
        have hC2 : ClosedExc (setMarked vs i) (E ++ o.fields.map (fun b => (i, b))) := by
          intro a oa ha hma b hb hlb
          rw [lookup_setMarked] at ha
          cases ha0 : lookupObj vs a with
          | none => rw [ha0] at ha; exact Option.noConfusion ha
          | some oa0 =>
            rw [ha0, Option.map_some'] at ha
            simp only [Option.some.injEq] at ha
            by_cases hai : oa0.id = i
            · rw [if_pos (by simp [hai])] at ha
              subst ha
              have haieq : a = i := (lookup_id ha0).symm.trans hai
              subst haieq
              have hoa0 : o = oa0 := by
                rw [hl] at ha0
                exact (Option.some.injEq _ _).mp ha0
              refine Or.inr (List.mem_append.mpr (Or.inr ?_))
              refine List.mem_map.mpr ⟨b, ?_, rfl⟩
              rw [hoa0]
              exact hb
            · rw [if_neg (by simp [hai])] at ha
              subst ha
              rcases hC a oa0 ha0 hma b hb
                  ((liveAt_of_grows (grows_setMarked vs i) b).mpr hlb) with hmk | hE
              · exact Or.inl (isMarkedB_of_grows (grows_setMarked vs i) b hmk)
              · exact Or.inr (List.mem_append.mpr (Or.inl hE))
        have fold : ∀ (l : List Nat) (ws : List GcObj) (E0 : List (Nat × Nat)),
            unmarkedCount ws ≤ fuel →
            ClosedExc ws (E0 ++ l.map (fun b => (i, b))) →
            ClosedExc (l.foldl (markOne fuel) ws) E0 ∧
            (∀ x ∈ l, LiveAt ws x → isMarkedB (l.foldl (markOne fuel) ws) x = true) := by
          intro l
          induction l with
          | nil =>
            intro ws E0 hw hCw
            rw [List.map_nil, List.append_nil] at hCw
            exact ⟨hCw, fun x hx => absurd hx (List.not_mem_nil x)⟩
          | cons x l ihl =>
            intro ws E0 hw hCw
            obtain ⟨hC1, hx1⟩ := ih ws x (E0 ++ (x :: l).map (fun b => (i, b))) hw hCw
            have hg1 := grows_markOne fuel ws x
            have hC1b : ClosedExc (markOne fuel ws x) (E0 ++ l.map (fun b => (i, b))) := by
              intro a oa ha hma b hb hlb
              rcases hC1 a oa ha hma b hb hlb with hmarked | hmem
              · exact Or.inl hmarked
              · rcases List.mem_append.mp hmem with h0 | hcons
                · exact Or.inr (List.mem_append.mpr (Or.inl h0))
                · rw [List.map_cons] at hcons
                  rcases List.mem_cons.mp hcons with heq | hrest
                  · rw [Prod.mk.injEq] at heq
                    obtain ⟨ha2, rfl⟩ := heq
                    have hlwb : LiveAt ws b := (liveAt_of_grows hg1 b).mpr hlb
                    exact Or.inl (hx1 hlwb)
                  · exact Or.inr (List.mem_append.mpr (Or.inr hrest))
            have hw1 : unmarkedCount (markOne fuel ws x) ≤ fuel :=
              le_trans (unmarkedCount_of_grows hg1) hw
            obtain ⟨hCfin, hfin⟩ := ihl (markOne fuel ws x) E0 hw1 hC1b
            rw [List.foldl_cons]
            refine ⟨hCfin, ?_⟩
            intro y hy hly
            rcases List.mem_cons.mp hy with rfl | hyl
            · have hg2 : Grows (markOne fuel ws y)
                  (l.foldl (markOne fuel) (markOne fuel ws y)) :=
                grows_foldl (grows_markOne fuel) l (markOne fuel ws y)
              exact isMarkedB_of_grows hg2 y (hx1 hly)
            · exact hfin y hyl ((liveAt_of_grows hg1 y).mp hly)
        obtain ⟨hCf, hf⟩ := fold o.fields (setMarked vs i) E hfuel2 hC2
        refine ⟨hCf, fun _ => ?_⟩
        have hmarked1 : isMarkedB (setMarked vs i) i = true := isMarkedB_setMarked_self hl
        have hg3 : Grows (setMarked vs i) (o.fields.foldl (markOne fuel) (setMarked vs i)) :=
          grows_foldl (grows_markOne fuel) o.fields (setMarked vs i)
        exact isMarkedB_of_grows hg3 i hmarked1

theorem markList_complete : ∀ (roots : List Nat) (fuel : Nat) (vs : List GcObj)
    (E : List (Nat × Nat)),
    unmarkedCount vs ≤ fuel → ClosedExc vs E →
    ClosedExc (markList fuel vs roots) E ∧
    (∀ r ∈ roots, LiveAt vs r → isMarkedB (markList fuel vs roots) r = true) := by
  intro roots
  induction roots with
  | nil =>
    intro fuel vs E h hC
    exact ⟨hC, fun r hr => absurd hr (List.not_mem_nil r)⟩
  | cons x l ihl =>
    intro fuel vs E h hC
    obtain ⟨hC1, hx1⟩ := markOne_complete fuel vs x E h hC
    have hg1 := grows_markOne fuel vs x
    have hw1 := le_trans (unmarkedCount_of_grows hg1) h
    obtain ⟨hC2, h2⟩ := ihl fuel (markOne fuel vs x) E hw1 hC1
    rw [markList, List.foldl_cons]
    refine ⟨hC2, ?_⟩
    intro r hr hlr
    rcases List.mem_cons.mp hr with rfl | hrl
    · exact isMarkedB_of_grows (grows_markList fuel (markOne fuel vs r) l) r (hx1 hlr)
    · exact h2 r hrl ((liveAt_of_grows hg1 r).mp hlr)

theorem markList_sound (fuel : Nat) : ∀ (roots : List Nat) (vs : List GcObj) (j : Nat),
    isMarkedB (markList fuel vs roots) j = true →
    isMarkedB vs j = true ∨ ∃ r ∈ roots, Relation.ReflTransGen (Edge vs) r j := by
  intro roots
  induction roots with
  | nil => intro vs j h; exact Or.inl h
  | cons x l ihl =>
    intro vs j h
    rw [markList, List.foldl_cons] at h
    rcases ihl (markOne fuel vs x) j h with hm | ⟨y, hy, hpath⟩
    · rcases markOne_sound fuel vs x j hm with hm2 | hpath
      · exact Or.inl hm2
      · exact Or.inr ⟨x, List.mem_cons_self x l, hpath⟩
    · have hg := grows_markOne fuel vs x
      refine Or.inr ⟨y, List.mem_cons_of_mem x hy, ?_⟩
      exact Relation.ReflTransGen.mono
        (fun a b hab => (edge_of_grows hg a b).mpr hab) hpath

theorem closedExc_nil_of_unmarked {vs : List GcObj}
    (h : ∀ o ∈ vs, o.marked = false) : ClosedExc vs [] := by
  intro a oa ha hma b hb hlb
  rw [h oa (lookup_mem ha)] at hma
  exact absurd hma (by simp)

theorem isMarkedB_false_of_unmarked {vs : List GcObj}
    (h : ∀ o ∈ vs, o.marked = false) (j : Nat) : isMarkedB vs j = false := by
  unfold isMarkedB
  cases ho : lookupObj vs j with
  | none => rfl
  | some o => exact h o (lookup_mem ho)

theorem liveAt_iff_isSome (vs : List GcObj) (i : Nat) :
    LiveAt vs i ↔ (lookupObj vs i).isSome = true := by
  constructor
  · rintro ⟨o, ho⟩
    rw [ho]
    rfl
  · intro h
    cases ho : lookupObj vs i with
    | none => rw [ho] at h; simp at h
    | some o => exact ⟨o, ho⟩

theorem closed_path_marked {vs R : List GcObj} (hg : Grows vs R)
    (hC : ClosedExc R []) {r : Nat} (hrmk : isMarkedB R r = true) :
    ∀ {j : Nat}, Relation.ReflTransGen (Edge vs) r j → LiveAt vs j →
      isMarkedB R j = true := by
  intro j hpath
  induction hpath with
  | refl => intro _; exact hrmk
  | tail hp hedge ihp =>
    rename_i b c
    intro hlc
    obtain ⟨ob, hob, hcf⟩ := hedge
    have hbm : isMarkedB R b = true := ihp ⟨ob, hob⟩
    obtain ⟨-, htrans, -⟩ := lookup_grows hg b
    obtain ⟨ob2, hob2, hid2, hsz2, hfl2, hmk2⟩ := htrans ob hob
    have hbm2 : ob2.marked = true := by
      unfold isMarkedB at hbm
      rw [hob2] at hbm
      exact hbm
    have hcf2 : c ∈ ob2.fields := by rw [hfl2]; exact hcf
    have hlc2 : LiveAt R c := (liveAt_of_grows hg c).mp hlc
    rcases hC b ob2 hob2 hbm2 c hcf2 hlc2 with hres | habs
    · exact hres
    · exact absurd habs (List.not_mem_nil _)

/-- The mark pass of a heap whose allocations are all unmarked marks
exactly the allocations reachable from the roots. -/
theorem marked_iff_reached (vs : List GcObj) (roots : List Nat)
    (hum : ∀ o ∈ vs, o.marked = false) (j : Nat) :
    isMarkedB (markList (unmarkedCount vs + 1) vs roots) j = true ↔
      Reached vs roots j := by
  have hg := grows_markList (unmarkedCount vs + 1) vs roots
  constructor
  · intro h
    rcases markList_sound _ roots vs j h with hm | ⟨r, hr, hpath⟩
    · rw [isMarkedB_false_of_unmarked hum j] at hm
      exact absurd hm (by simp)
    · refine ⟨?_, r, hr, hpath⟩
      have hlR : LiveAt (markList (unmarkedCount vs + 1) vs roots) j := by
        unfold isMarkedB at h
        cases ho : lookupObj (markList (unmarkedCount vs + 1) vs roots) j with
        | none => rw [ho] at h; simp at h
        | some o => exact ⟨o, ho⟩
      exact (liveAt_of_grows hg j).mpr hlR
  · rintro ⟨hlive, r, hr, hpath⟩
    obtain ⟨hCf, hroots⟩ := markList_complete roots (unmarkedCount vs + 1) vs []
      (by omega) (closedExc_nil_of_unmarked hum)
    have hrlive : LiveAt vs r := by
      rcases Relation.ReflTransGen.cases_head hpath with rfl | ⟨c, hedge, _⟩
      · exact hlive
      · obtain ⟨o, ho, _⟩ := hedge
        exact ⟨o, ho⟩
    exact closed_path_marked hg hCf (hroots r hr hrlive) hpath hlive

theorem ids_of_grows {vs vs2 : List GcObj} (h : Grows vs vs2) :
    vs2.map GcObj.id = vs.map GcObj.id := by
  induction h with
  | nil => rfl
  | cons hab h2 ih => simp [ih, hab.1]

/-- The live list `sweep` leaves behind: the marked allocations, their
marks cleared. -/
def sweptValues (vs : List GcObj) : List GcObj :=
  (vs.filter (fun o => o.marked)).map (fun o => {o with marked := false})

theorem sweep_values (g : GcState) : (sweep g).values = sweptValues g.values := rfl

theorem sweptValues_ids {vs : List GcObj} {o : GcObj} (h : o ∈ sweptValues vs) :
    o.id ∈ vs.map GcObj.id := by
  obtain ⟨o0, ho0, rfl⟩ := List.mem_map.mp h
  exact List.mem_map.mpr ⟨o0, (List.mem_filter.mp ho0).1, rfl⟩

theorem sweep_lookup : ∀ (vs : List GcObj), (vs.map GcObj.id).Nodup → ∀ (i : Nat),
    ((lookupObj (sweptValues vs) i).isSome = true ↔ isMarkedB vs i = true) := by
  intro vs
  induction vs with
  | nil => intro _ i; simp [sweptValues, lookupObj, isMarkedB]
  | cons a vs ih =>
    intro hnd i
    rw [List.map_cons, List.nodup_cons] at hnd
    obtain ⟨hna, hndt⟩ := hnd
    by_cases hai : a.id = i
    · subst hai
      by_cases hm : a.marked
      · rw [show sweptValues (a :: vs)
            = {a with marked := false} :: sweptValues vs from by
              simp [sweptValues, List.filter_cons, hm]]
        rw [lookupObj, if_pos (by simp), isMarkedB, lookupObj, if_pos (by simp)]
        simp [hm]
      · rw [show sweptValues (a :: vs) = sweptValues vs from by
              simp [sweptValues, List.filter_cons, hm]]
        rw [isMarkedB, lookupObj, if_pos (by simp)]
        have hnone : lookupObj (sweptValues vs) a.id = none := by
          apply lookup_none_of_ids
          intro o ho hoa
          exact hna (hoa ▸ sweptValues_ids ho)
        rw [hnone]
        simp [hm]
    · have htail : (lookupObj (sweptValues vs) i).isSome = true ↔
          isMarkedB vs i = true := ih hndt i
      by_cases hm : a.marked
      · rw [show sweptValues (a :: vs)
            = {a with marked := false} :: sweptValues vs from by
              simp [sweptValues, List.filter_cons, hm]]
        rw [lookupObj, if_neg (by simp [hai]), isMarkedB, lookupObj,
          if_neg (by simp [hai])]
        exact htail
      · rw [show sweptValues (a :: vs) = sweptValues vs from by
              simp [sweptValues, List.filter_cons, hm]]
        rw [isMarkedB, lookupObj, if_neg (by simp [hai])]
        exact htail

theorem cycle_rtg {vs : List GcObj} {C : List Nat} (hne : C ≠ [])
    (hcyc : ∀ m, m < C.length →
      Edge vs (C.getD m 0) (C.getD ((m + 1) % C.length) 0)) :
    ∀ a b, a < C.length → b < C.length →
      Relation.ReflTransGen (Edge vs) (C.getD a 0) (C.getD b 0) := by
  have hlen : 0 < C.length := List.length_pos.mpr hne
  have hstep : ∀ (j a : Nat), a < C.length →
      Relation.ReflTransGen (Edge vs) (C.getD a 0) (C.getD ((a + j) % C.length) 0) := by
    intro j
    induction j with
    | zero =>
      intro a ha
      rw [Nat.add_zero, Nat.mod_eq_of_lt ha]
    | succ j ihj =>
      intro a ha
      have h1 := ihj a ha
      have h2 := hcyc ((a + j) % C.length) (Nat.mod_lt _ hlen)
      have h3 : ((a + j) % C.length + 1) % C.length = (a + (j + 1)) % C.length := by
        rw [Nat.mod_add_mod, Nat.add_assoc]
      rw [h3] at h2
      exact h1.tail h2
  intro a b ha hb
  have hwalk := hstep ((C.length + b) - a) a ha
  have heq : (a + (C.length + b - a)) % C.length = b := by
    have h1 : a + (C.length + b - a) = C.length + b := by omega
    rw [h1, Nat.add_mod_left, Nat.mod_eq_of_lt hb]
  rw [heq] at hwalk
  exact hwalk

/-- C5 (confirmed).  `collect_limit` starts at 100; `alloc_and_collect`
collects exactly when `allocated_memory >= collect_limit` at entry
(traversing roots and descriptor); after every `collect` the limit equals
`2 * allocated_memory` as measured after the sweep; and each allocation
accumulates its header-plus-payload byte size into `allocated_memory`. -/
theorem c5_collect_limit_policy (headerOverhead : Nat) (roots : List Nat)
    (d : GcDataDef) (g : GcState) :
    TypedGc.new.collect_limit = 100 ∧
    (g.allocated_memory < g.collect_limit →
      allocAndCollect headerOverhead roots d g = alloc headerOverhead d g) ∧
    (g.collect_limit ≤ g.allocated_memory →
      allocAndCollect headerOverhead roots d g
        = alloc headerOverhead d (collect (roots ++ d.fields) g)) ∧
    ((collect roots g).collect_limit = 2 * (collect roots g).allocated_memory) ∧
    ((collect roots g).allocated_memory = (sweep (markPhase roots g)).allocated_memory) ∧
    (∀ p g2, alloc headerOverhead d g = some (p, g2) →
      g2.allocated_memory = g.allocated_memory + (headerOverhead + d.dsize)) := by
  refine ⟨rfl, fun h => ?_, fun h => ?_, rfl, rfl, fun p g2 h => ?_⟩
  · have hnot : ¬ g.allocated_memory ≥ g.collect_limit := by omega
    simp [allocAndCollect, hnot]
  · simp [allocAndCollect, h]
  · unfold alloc at h
    by_cases hinit : d.initRet g.nextId = g.nextId
    · simp [hinit] at h
      rw [← h.2]
    · simp [hinit] at h

/-- C5, witness: from a fresh heap (allocated 0 < limit 100) the first
allocation does not collect and adds its full byte size. -/
theorem c5_collect_limit_policy_witness :
    allocAndCollect 16 [] ⟨8, [], fun p => p⟩ TypedGc.new
        = alloc 16 ⟨8, [], fun p => p⟩ TypedGc.new ∧
    (allocAndCollect 16 [] ⟨8, [], fun p => p⟩ TypedGc.new).map
        (fun r => r.2.allocated_memory) = some 24 := by
  have h := (c5_collect_limit_policy 16 [] ⟨8, [], fun p => p⟩ TypedGc.new).2.1
      (by simp [TypedGc.new])
  exact ⟨h, by rw [h]; rfl⟩

/-- C6 (confirmed).  `alloc` invokes the descriptor's initialiser exactly
once, on the fresh address of storage of the descriptor's declared size;
it panics precisely when the address the initialiser returns differs from
the one it was handed, and otherwise returns the handle to the initialised
payload, linked unmarked at the head of the live list. -/
theorem c6_alloc_initialiser_identity (headerOverhead : Nat) (d : GcDataDef)
    (g : GcState) :
    (alloc headerOverhead d g = none ↔ d.initRet g.nextId ≠ g.nextId) ∧
    (d.initRet g.nextId = g.nextId →
      alloc headerOverhead d g = some (g.nextId,
        {g with
          values := ⟨g.nextId, headerOverhead + d.dsize, false, d.fields⟩ :: g.values,
          allocated_memory := g.allocated_memory + (headerOverhead + d.dsize),
          nextId := g.nextId + 1})) := by
  constructor
  · unfold alloc
    by_cases hinit : d.initRet g.nextId = g.nextId <;> simp [hinit]
  · intro h
    simp [alloc, h]

/-- C6, witness: an initialiser returning a different address panics; the
identity initialiser returns the handle. -/
theorem c6_alloc_initialiser_identity_witness :
    alloc 16 ⟨8, [], fun p => p + 1⟩ TypedGc.new = none ∧
    alloc 16 ⟨8, [], fun p => p⟩ TypedGc.new
      = some (0, ⟨[⟨0, 24, false, []⟩], 24, 100, 1⟩) := by
  constructor
  · exact (c6_alloc_initialiser_identity 16 ⟨8, [], fun p => p + 1⟩ TypedGc.new).1.2
      (by simp)
  · have h := (c6_alloc_initialiser_identity 16 ⟨8, [], fun p => p⟩ TypedGc.new).2 rfl
    rw [h]
    rfl

/-- C7 (confirmed).  Visiting a handle observes-and-sets its header's mark
bit, and the traversal does not recurse into the payload of a handle whose
mark bit was already set; consequently the traversal stabilises at a
finite depth even on cyclic heaps — its result is the same for every
sufficient fuel — and for every heap containing a cyclic graph of handles,
`collect` preserves every member of the cycle iff some member is reachable
from the roots. -/
theorem c7_mark_cycle_termination :
    (∀ fuel vs i o, lookupObj vs i = some o → o.marked = true →
      markOne (fuel + 1) vs i = vs) ∧
    (∀ fuel vs i o, lookupObj vs i = some o → o.marked = false →
      isMarkedB (markOne (fuel + 1) vs i) i = true) ∧
    (∀ vs i f1 f2, unmarkedCount vs ≤ f1 → unmarkedCount vs ≤ f2 →
      markOne f1 vs i = markOne f2 vs i) ∧
    (∀ (g : GcState) (roots C : List Nat),
      (∀ o ∈ g.values, o.marked = false) →
      (g.values.map GcObj.id).Nodup →
      C ≠ [] →
      (∀ m, m < C.length →
        Edge g.values (C.getD m 0) (C.getD ((m + 1) % C.length) 0)) →
      ((∀ c ∈ C, LiveAt (collect roots g).values c) ↔
        ∃ c ∈ C, Reached g.values roots c)) := by
  refine ⟨?_, ?_, ?_, ?_⟩
  · intro fuel vs i o hl hm
    exact markOne_succ_of_marked hl hm
  · intro fuel vs i o hl hm
    rw [markOne_succ_of_unmarked hl hm]
    exact isMarkedB_of_grows
      (grows_foldl (grows_markOne fuel) o.fields (setMarked vs i)) i
      (isMarkedB_setMarked_self hl)
  · intro vs i f1 f2 h1 h2
    exact markOne_fuel_indep h1 h2
  · intro g roots C hum hnd hne hcyc
    have hR : (collect roots g).values
        = sweptValues (markList (unmarkedCount g.values + 1) g.values roots) := rfl
    have hgrow := grows_markList (unmarkedCount g.values + 1) g.values roots
    have hndR : ((markList (unmarkedCount g.values + 1) g.values roots).map
        GcObj.id).Nodup := by
      rw [ids_of_grows hgrow]
      exact hnd
    have hsurv : ∀ c, LiveAt (collect roots g).values c ↔ Reached g.values roots c := by
      intro c
      rw [hR, liveAt_iff_isSome, sweep_lookup _ hndR c,
        marked_iff_reached g.values roots hum c]
    have hliveC : ∀ m, m < C.length → LiveAt g.values (C.getD m 0) := by
      intro m hm
      obtain ⟨o, ho, -⟩ := hcyc m hm
      exact ⟨o, ho⟩
    constructor
    · intro hall
      obtain ⟨c0, hc0⟩ := List.exists_mem_of_ne_nil C hne
      exact ⟨c0, hc0, (hsurv c0).mp (hall c0 hc0)⟩
    · rintro ⟨c0, hc0, hl0, r, hr, hpath⟩
      intro c hc
      rw [hsurv c]
      obtain ⟨b, hb, hcb⟩ := List.mem_iff_getElem.mp hc
      obtain ⟨a, ha, hca⟩ := List.mem_iff_getElem.mp hc0
      have hcb2 : C.getD b 0 = c := by rw [List.getD_eq_getElem C 0 hb]; exact hcb
      have hca2 : C.getD a 0 = c0 := by rw [List.getD_eq_getElem C 0 ha]; exact hca
      have hcycpath := cycle_rtg hne hcyc a b ha hb
      rw [hca2, hcb2] at hcycpath
      refine ⟨?_, r, hr, hpath.trans hcycpath⟩
      rw [← hcb2]
      exact hliveC b hb

/-- C7, witness: a heap of two allocations pointing at each other — a
cycle — is fully preserved by `collect` when one member is a root. -/
theorem c7_mark_cycle_termination_witness :
    ∀ c ∈ [0, 1],
      LiveAt (collect [0]
        ⟨[⟨0, 8, false, [1]⟩, ⟨1, 8, false, [0]⟩], 16, 100, 2⟩).values c := by
  have h := c7_mark_cycle_termination.2.2.2
      ⟨[⟨0, 8, false, [1]⟩, ⟨1, 8, false, [0]⟩], 16, 100, 2⟩ [0] [0, 1]
      (by intro o ho; simp at ho; rcases ho with rfl | rfl <;> rfl)
      (by simp)
      (by simp)
      (by
        intro m hm
        simp at hm
        interval_cases m
        · exact ⟨⟨0, 8, false, [1]⟩, rfl, by simp⟩
        · exact ⟨⟨1, 8, false, [0]⟩, rfl, by simp⟩)
  exact h.mpr ⟨0, by simp, ⟨⟨0, 8, false, [1]⟩, rfl⟩, 0, by simp,
    Relation.ReflTransGen.refl⟩

end Gc
